import Mathlib

/-!
ProcessEventsFlakiness: worker-thread lifecycle of `widget.cpp`.

A shallow embedding of `src/widget.cpp` / `src/widget.h`.

* The worker thread is a state record `WorkerThread`: the `qDebug` log, the
  `m_audioSink` slot, the live `AudioSink` objects, the lifecycle phase of the
  `Worker`, the `QTimer` child, and the event queue of the thread.
* `QApplication::processEvents()` inside `~AudioSink` is passed to every handler
  as a function argument, so that each handler is a plain non-recursive
  definition that can be compared with its C++ text.  The knot is tied by
  `processEvents`, which recurses on a nesting budget.
* The GUI side (`Widget`) is a second state record with the single-shot
  `clicked` connections made by `Widget::start` / `Widget::stop`.
-/

namespace ProcessEventsFlakiness

/-! ## Worker thread -/

/-- Tasks of the worker thread's event queue: a due `QTimer::timeout`
(connected to `Worker::restartAudio`) and the deferred delete posted by
`DeleteLater` (`obj->deleteLater()`). -/
inductive PendingTask
  | tick
  | destroyWorker
  deriving DecidableEq, Repr

/-- Lines written with `qDebug()` in `widget.cpp`. Sinks are identified by their
creation number. -/
inductive Msg
  | workerCreated
  | initAudio
  | restartBegin
  | restartEnd
  | sinkCreated (sink : Nat)
  | sinkDeleted (sink : Nat)
  | workerDestroyed
  deriving DecidableEq, Repr

/-- Lifecycle of the `Worker` object: `destroying` from the moment `~Worker`
starts until the `QObject` base has been destroyed. -/
inductive Phase
  | alive
  | destroying
  | gone
  deriving DecidableEq, Repr

/-- State of the worker thread.

* `log`: the `qDebug` output so far;
* `m_audioSink`: the `std::unique_ptr<AudioSink>` member (the memory cell, which
  is still written by an in-flight `restartAudio` after the `Worker` is freed);
* `liveSinks`: `AudioSink` objects constructed and not yet destroyed;
* `nextSink`: number given to the next sink made by `createSink`;
* `phase`: lifecycle of the `Worker`;
* `timerActive`: the `QTimer` child made by `initAudio` exists and is started;
* `lateStores`: (ghost) sinks assigned to `m_audioSink` after `~Worker` began;
* `lateRestarts`: (ghost) the phase at every entry of `restartAudio` made after
  `~Worker` began;
* `queue`: tasks posted to the thread, in post order, not yet dispatched;
* `arrivals`: for each call of `QApplication::processEvents()`, in call order, how
  many of the queued tasks that call delivers itself, i.e. how many are already
  posted when it is made, not counting those delivered by calls nested deeper
  (a call beyond the end of the list finds nothing pending);
* `deleterFirst`: the order inside `~unique_ptr`, which the C++ standard leaves to
  the library: `true` when the destructor deletes the object while the pointer is
  still stored and clears the pointer afterwards (libstdc++), `false` when it
  clears the pointer first, as `reset()` does (libc++). -/
structure WorkerThread where
  log : List Msg
  m_audioSink : Option Nat
  liveSinks : List Nat
  nextSink : Nat
  phase : Phase
  timerActive : Bool
  lateStores : List Nat
  lateRestarts : List Phase
  queue : List PendingTask
  arrivals : List Nat
  deleterFirst : Bool
  deriving DecidableEq, Repr

/-- The C++ `delete sink` (lines 55-59 and 113-115): `~AudioSink` calls
`QApplication::processEvents()`, then `~QObject` emits `destroyed`, whose
connected lambda prints "Sink deleted". -/
def AudioSink.delete (processEvents : WorkerThread → WorkerThread) (sink : Nat)
    (w : WorkerThread) : WorkerThread :=
  let w1 := processEvents w
  { w1 with
    liveSinks := w1.liveSinks.filter (fun s => s != sink)
    log := w1.log ++ [Msg.sinkDeleted sink] }

/-- The call `m_audioSink.reset(p)`, also the move assignment `m_audioSink = p`
(`std::unique_ptr`): the old pointer is read, `p` is stored, and then the old
object, if any, is deleted.  A store of a sink made once `~Worker` has begun is
recorded in the ghost field `lateStores`. -/
def resetAudioSink (processEvents : WorkerThread → WorkerThread) (p : Option Nat)
    (w : WorkerThread) : WorkerThread :=
  let old := w.m_audioSink
  let w1 := { w with
    m_audioSink := p
    lateStores := if w.phase = Phase.alive then w.lateStores else w.lateStores ++ p.toList }
  match old with
  | none => w1
  | some s => AudioSink.delete processEvents s w1

/-- Function `Worker::createSink` (lines 108-118): make a sink and print "Sink created". -/
def Worker.createSink (w : WorkerThread) : Nat × WorkerThread :=
  let sink := w.nextSink
  (sink, { w with
    nextSink := sink + 1
    liveSinks := w.liveSinks ++ [sink]
    log := w.log ++ [Msg.sinkCreated sink] })

/-- Function `Worker::restartAudio` (lines 90-106).  An entry made once `~Worker` has begun
is recorded in the ghost field `lateRestarts`. -/
def Worker.restartAudio (processEvents : WorkerThread → WorkerThread)
    (w : WorkerThread) : WorkerThread :=
  let w1 := { w with
    log := w.log ++ [Msg.restartBegin]
    lateRestarts := if w.phase = Phase.alive then w.lateRestarts else w.lateRestarts ++ [w.phase] }
  let w2 := resetAudioSink processEvents none w1
  let (sink, w3) := Worker.createSink w2
  let w4 := resetAudioSink processEvents (some sink) w3
  { w4 with log := w4.log ++ [Msg.restartEnd] }

/-- The C++ `delete worker`, run by the deferred delete: the body of `~Worker` (lines
70-73) prints "Worker destroyed"; then the member `m_audioSink` is destroyed by
`~unique_ptr`, in the order given by `deleterFirst`: either the sink is deleted
while the slot still holds it and the slot is cleared afterwards, or the slot is
cleared first; then `~QObject` deletes the child `QTimer` made by `initAudio` and
the object is gone.  The two orders give the same state unless a task delivered by
the `processEvents` call of `~AudioSink` touches the slot in between; what such a
task does to a sink that is being destroyed is undefined behaviour in C++, and the
theorems below follow such a run only up to the entry of the nested handler. -/
def Worker.delete (processEvents : WorkerThread → WorkerThread)
    (w : WorkerThread) : WorkerThread :=
  let w1 := { w with phase := Phase.destroying, log := w.log ++ [Msg.workerDestroyed] }
  let w2 :=
    match w1.m_audioSink with
    | none => w1
    | some s =>
      if w1.deleterFirst then
        { AudioSink.delete processEvents s w1 with m_audioSink := none }
      else
        AudioSink.delete processEvents s { w1 with m_audioSink := none }
  { w2 with timerActive := false, phase := Phase.gone }

/-- Delivery of one queued task. A timeout is delivered only while the `QTimer`
exists; the deferred delete is delivered to a `Worker` that is still alive. -/
def dispatch (processEvents : WorkerThread → WorkerThread) (t : PendingTask)
    (w : WorkerThread) : WorkerThread :=
  match t with
  | PendingTask.tick => if w.timerActive then Worker.restartAudio processEvents w else w
  | PendingTask.destroyWorker =>
      if w.phase = Phase.alive then Worker.delete processEvents w else w

/-- Deliver up to `k` tasks from the head of the queue, in post order. -/
def dispatchPending (processEvents : WorkerThread → WorkerThread) :
    Nat → WorkerThread → WorkerThread
  | 0, w => w
  | k + 1, w =>
    match w.queue with
    | [] => w
    | t :: rest => dispatchPending processEvents k (dispatch processEvents t { w with queue := rest })

/-- The call `QApplication::processEvents()` made from inside a handler: delivers
the tasks pending at that moment (their number is read from `arrivals`).  The first
argument bounds the nesting depth of such calls. -/
def processEvents : Nat → WorkerThread → WorkerThread
  | 0, w => w
  | depth + 1, w =>
    match w.arrivals with
    | [] => w
    | k :: ks => dispatchPending (processEvents depth) k { w with arrivals := ks }

/-- The event loop of the thread (`QThread::exec`): deliver every queued task.
Each nested `processEvents` call happens inside a handler, after at least one
more task has left the queue, so a depth of `queue.length` is never exhausted. -/
def exec (w : WorkerThread) : WorkerThread :=
  dispatchPending (processEvents w.queue.length) w.queue.length w

/-- Constructor `Worker::Worker` (lines 65-68). -/
def Worker.new : WorkerThread :=
  { log := [Msg.workerCreated], m_audioSink := none, liveSinks := [], nextSink := 0,
    phase := Phase.alive, timerActive := false, lateStores := [],
    lateRestarts := [], queue := [], arrivals := [], deleterFirst := true }

/-- Function `Worker::initAudio` (lines 75-87): prints "Init audio" and starts the timer. -/
def Worker.initAudio (w : WorkerThread) : WorkerThread :=
  { w with log := w.log ++ [Msg.initAudio], timerActive := true }

/-- A started worker (constructed, `initAudio` run) with the given tasks posted
to its thread and the given arrival pattern. -/
def Worker.started (queue : List PendingTask) (arrivals : List Nat) : WorkerThread :=
  { Worker.initAudio Worker.new with queue := queue, arrivals := arrivals }

/-! ## GUI thread: `Widget` -/

/-- Slots connected to `QPushButton::clicked` by `Widget::start` / `Widget::stop`. -/
inductive ClickSlot
  | start
  | stop
  deriving DecidableEq, Repr

/-- State of the `Widget` on the GUI thread.

* `m_worker`: the `std::unique_ptr<Worker, DeleteLater>` member (workers are
  numbered in creation order);
* `text`: the button text;
* `clicked`: the `Qt::SingleShotConnection`s to `QPushButton::clicked`, in
  connection order;
* `deleteLaterPosted`: workers on which `DeleteLater` called `deleteLater()`;
* `initAudioPosted`: workers to which `Worker::initAudio` was posted;
* `nextWorker`: number given to the next `new Worker`;
* `threadRunning`: `m_thread` has been started and not yet quit. -/
structure Widget where
  m_worker : Option Nat
  text : String
  clicked : List ClickSlot
  deleteLaterPosted : List Nat
  initAudioPosted : List Nat
  nextWorker : Nat
  threadRunning : Bool
  deriving DecidableEq, Repr

/-- The call `m_worker.reset(p)`: store `p`, then hand the old pointer, if any, to the deleter
`DeleteLater` (widget.h lines 9-15), which posts `deleteLater()`. -/
def Widget.resetWorker (p : Option Nat) (g : Widget) : Widget :=
  let old := g.m_worker
  let g1 := { g with m_worker := p }
  match old with
  | none => g1
  | some worker => { g1 with deleteLaterPosted := g1.deleteLaterPosted ++ [worker] }

/-- Function `Widget::stop` (lines 151-156). -/
def Widget.stop (g : Widget) : Widget :=
  let g1 := Widget.resetWorker none g
  { g1 with text := "START", clicked := g1.clicked ++ [ClickSlot.start] }

/-- Function `Widget::start` (lines 139-149); `none` when `Q_ASSERT(!m_worker)` fails. -/
def Widget.start (g : Widget) : Option Widget :=
  if g.m_worker.isSome then none
  else
    let worker := g.nextWorker
    let g1 := Widget.resetWorker (some worker) { g with nextWorker := worker + 1 }
    some { g1 with
      initAudioPosted := g1.initAudioPosted ++ [worker]
      text := "STOP"
      clicked := g1.clicked ++ [ClickSlot.stop] }

/-- Constructor `Widget::Widget` (lines 124-130): start the thread, then `stop()`. -/
def Widget.new : Widget :=
  Widget.stop
    { m_worker := none, text := "", clicked := [], deleteLaterPosted := [],
      initAudioPosted := [], nextWorker := 0, threadRunning := true }

/-- Destructor `Widget::~Widget` (lines 132-137): `m_worker.reset()`, then quit and wait. -/
def Widget.destroy (g : Widget) : Widget :=
  let g1 := Widget.resetWorker none g
  { g1 with threadRunning := false }

/-- Call of one connected slot. -/
def Widget.invoke (s : ClickSlot) (g : Widget) : Option Widget :=
  match s with
  | ClickSlot.start => Widget.start g
  | ClickSlot.stop => some (Widget.stop g)

/-- One click: `clicked` is emitted; each single-shot connection that exists at
the emission is broken and its slot called, in connection order; connections
made by the slots take part in the next emission only. -/
def Widget.click (g : Widget) : Option Widget :=
  g.clicked.foldlM (fun acc s => Widget.invoke s acc) { g with clicked := [] }

/-- The widget after `n` clicks; `none` if an assertion failed on the way. -/
def Widget.clicks : Nat → Widget → Option Widget
  | 0, g => some g
  | n + 1, g => (Widget.click g).bind (Widget.clicks n)

/-- The two states between clicks: armed for `start` (no Worker held, text
"START") when `running` is false, armed for `stop` (a Worker held, text "STOP")
when it is true. -/
def Widget.armed (running : Bool) (g : Widget) : Prop :=
  if running then
    g.clicked = [ClickSlot.stop] ∧ g.m_worker.isSome = true ∧ g.text = "STOP"
  else
    g.clicked = [ClickSlot.start] ∧ g.m_worker = none ∧ g.text = "START"

/-! ## Observations on the log -/

/-- Number of "Sink created" lines. -/
def createdCount (log : List Msg) : Nat :=
  log.countP (fun m => match m with | Msg.sinkCreated _ => true | _ => false)

/-- Number of "Sink deleted" lines. -/
def deletedCount (log : List Msg) : Nat :=
  log.countP (fun m => match m with | Msg.sinkDeleted _ => true | _ => false)

/-- Number of "Worker destroyed" lines. -/
def destroyedCount (log : List Msg) : Nat :=
  log.count Msg.workerDestroyed

/-- The lines printed by the `i`-th tick (counted from 0) when nothing is pending
while it runs: the first tick finds the slot empty, every later one replaces the
sink made by the tick before it. -/
def tickLog : Nat → List Msg
  | 0 => [Msg.restartBegin, Msg.sinkCreated 0, Msg.restartEnd]
  | i + 1 => [Msg.restartBegin, Msg.sinkDeleted i, Msg.sinkCreated (i + 1), Msg.restartEnd]

/-- The lines printed by the first `n` ticks when nothing is pending while they run. -/
def ticksLog : Nat → List Msg
  | 0 => []
  | n + 1 => ticksLog n ++ tickLog n

/-- Nothing is dispatched by the next `processEvents` call: no task is queued, or
the call finds none of them pending yet. -/
def nothingPending (w : WorkerThread) : Prop :=
  w.queue = [] ∨ w.arrivals.headD 0 = 0

/-- Sinks are numbered in creation order: every live sink has a number below
`nextSink`, and a sink held by the slot is live. -/
def sinksNumbered (w : WorkerThread) : Prop :=
  (∀ x ∈ w.liveSinks, x < w.nextSink) ∧ (∀ s, w.m_audioSink = some s → s ∈ w.liveSinks)

/-- The state of a started worker after `n` ticks during which nothing was
pending, with queue `q` and arrival pattern `a` left: the slot holds the sink made
by the last tick, which is the only live one. -/
def afterTicks (n : Nat) (q : List PendingTask) (a : List Nat) : WorkerThread :=
  { log := [Msg.workerCreated, Msg.initAudio] ++ ticksLog n
    m_audioSink := if n = 0 then none else some (n - 1)
    liveSinks := if n = 0 then [] else [n - 1]
    nextSink := n
    phase := Phase.alive
    timerActive := true
    lateStores := []
    lateRestarts := []
    queue := q
    arrivals := a
    deleterFirst := true }

/-- The function `f` never adds a task to the queue. -/
def shrinks (f : WorkerThread → WorkerThread) : Prop :=
  ∀ w, (f w).queue.length ≤ w.queue.length

/-- The functions `f` and `g` agree on every state with fewer than `bound` queued tasks. -/
def agreeBelow (bound : Nat) (f g : WorkerThread → WorkerThread) : Prop :=
  ∀ w, w.queue.length < bound → f w = g w

/-- Position of a phase in the lifecycle of the Worker. -/
def Phase.rank : Phase → Nat
  | Phase.alive => 0
  | Phase.destroying => 1
  | Phase.gone => 2

/-- Invariant of the worker thread, kept by every handler whatever is pending:
the Worker has reached at least lifecycle position `n`; "Worker destroyed" has
been printed exactly when the Worker is no longer alive, and then once; the timer
of a Worker that is gone is cancelled; `restartAudio` was never entered on a Worker
that is gone; and, if a deferred delete was posted (`posted`), it is still queued
while the Worker is alive. -/
def lifecycleInv (n : Nat) (posted : Bool) (w : WorkerThread) : Prop :=
  n ≤ w.phase.rank ∧
  destroyedCount w.log = (if w.phase = Phase.alive then 0 else 1) ∧
  (w.phase = Phase.gone → w.timerActive = false) ∧
  Phase.gone ∉ w.lateRestarts ∧
  (posted = true → w.phase = Phase.alive → PendingTask.destroyWorker ∈ w.queue)

open PendingTask Msg

/-! ## The nesting budget of `processEvents` is never exhausted -/

theorem AudioSink.delete_queue (pe : WorkerThread → WorkerThread) (s : Nat) (w : WorkerThread) :
    (AudioSink.delete pe s w).queue = (pe w).queue := rfl

theorem resetAudioSink_queue_le (pe : WorkerThread → WorkerThread) (hpe : shrinks pe)
    (p : Option Nat) (w : WorkerThread) :
    (resetAudioSink pe p w).queue.length ≤ w.queue.length := by
  obtain ⟨log, slot, live, next, phase, timer, ls, lr, queue, arrivals, df⟩ := w
  cases slot with
  | none => simp [resetAudioSink]
  | some s => exact hpe _

theorem Worker.restartAudio_queue_le (pe : WorkerThread → WorkerThread) (hpe : shrinks pe)
    (w : WorkerThread) :
    (Worker.restartAudio pe w).queue.length ≤ w.queue.length := by
  have h1 := resetAudioSink_queue_le pe hpe none
    { w with
      log := w.log ++ [restartBegin]
      lateRestarts :=
        if w.phase = Phase.alive then w.lateRestarts else w.lateRestarts ++ [w.phase] }
  have h2 := resetAudioSink_queue_le pe hpe
    (some (Worker.createSink (resetAudioSink pe none
      { w with
        log := w.log ++ [restartBegin]
        lateRestarts :=
          if w.phase = Phase.alive then w.lateRestarts else w.lateRestarts ++ [w.phase] })).1)
    (Worker.createSink (resetAudioSink pe none
      { w with
        log := w.log ++ [restartBegin]
        lateRestarts :=
          if w.phase = Phase.alive then w.lateRestarts else w.lateRestarts ++ [w.phase] })).2
  exact Nat.le_trans h2 h1

theorem Worker.delete_queue_le (pe : WorkerThread → WorkerThread) (hpe : shrinks pe)
    (w : WorkerThread) :
    (Worker.delete pe w).queue.length ≤ w.queue.length := by
  obtain ⟨log, slot, live, next, phase, timer, ls, lr, queue, arrivals, df⟩ := w
  cases slot with
  | none => simp [Worker.delete]
  | some s =>
    cases df with
    | true => exact hpe _
    | false => exact hpe _

theorem dispatch_queue_le (pe : WorkerThread → WorkerThread) (hpe : shrinks pe)
    (t : PendingTask) (w : WorkerThread) :
    (dispatch pe t w).queue.length ≤ w.queue.length := by
  cases t with
  | tick =>
    simp only [dispatch]
    split
    · exact Worker.restartAudio_queue_le pe hpe w
    · exact Nat.le_refl _
  | destroyWorker =>
    simp only [dispatch]
    split
    · exact Worker.delete_queue_le pe hpe w
    · exact Nat.le_refl _

/-- Delivering up to `k` tasks removes at least `k` of them, or all. -/
theorem dispatchPending_queue_le (pe : WorkerThread → WorkerThread) (hpe : shrinks pe)
    (k : Nat) : ∀ w, (dispatchPending pe k w).queue.length ≤ w.queue.length - k := by
  induction k with
  | zero => intro w; exact Nat.le_refl _
  | succ k ih =>
    intro w
    obtain ⟨log, slot, live, next, phase, timer, ls, lr, queue, arrivals, df⟩ := w
    cases queue with
    | nil => simp [dispatchPending]
    | cons t rest =>
      simp only [dispatchPending]
      have h1 := ih (dispatch pe t
        { log := log, m_audioSink := slot, liveSinks := live, nextSink := next, phase := phase,
          timerActive := timer, lateStores := ls, lateRestarts := lr, queue := rest,
          arrivals := arrivals, deleterFirst := df })
      have h2 := dispatch_queue_le pe hpe t
        { log := log, m_audioSink := slot, liveSinks := live, nextSink := next, phase := phase,
          timerActive := timer, lateStores := ls, lateRestarts := lr, queue := rest,
          arrivals := arrivals, deleterFirst := df }
      simp only [List.length_cons] at h2 ⊢
      omega

theorem processEvents_shrinks (depth : Nat) : shrinks (processEvents depth) := by
  induction depth with
  | zero => intro w; exact Nat.le_refl _
  | succ d ih =>
    intro w
    obtain ⟨log, slot, live, next, phase, timer, ls, lr, queue, arrivals, df⟩ := w
    cases arrivals with
    | nil => simp [processEvents]
    | cons k ks =>
      simp only [processEvents]
      exact Nat.le_trans (dispatchPending_queue_le _ ih k _) (Nat.sub_le _ _)

/-- The event loop delivers every queued task. -/
theorem exec_queue (w : WorkerThread) : (exec w).queue = [] := by
  have h := dispatchPending_queue_le (processEvents w.queue.length)
    (processEvents_shrinks _) w.queue.length w
  rw [Nat.sub_self] at h
  exact List.length_eq_zero.mp (Nat.le_zero.mp h)

theorem resetAudioSink_agree (bound : Nat) (pe1 pe2 : WorkerThread → WorkerThread)
    (h : agreeBelow bound pe1 pe2) (p : Option Nat) (w : WorkerThread)
    (hw : w.queue.length < bound) :
    resetAudioSink pe1 p w = resetAudioSink pe2 p w := by
  obtain ⟨log, slot, live, next, phase, timer, ls, lr, queue, arrivals, df⟩ := w
  cases slot with
  | none => rfl
  | some s =>
    simp only [resetAudioSink, AudioSink.delete]
    rw [h]
    exact hw

theorem Worker.restartAudio_agree (bound : Nat) (pe1 pe2 : WorkerThread → WorkerThread)
    (h : agreeBelow bound pe1 pe2) (hs : shrinks pe1) (w : WorkerThread)
    (hw : w.queue.length < bound) :
    Worker.restartAudio pe1 w = Worker.restartAudio pe2 w := by
  have e1 := resetAudioSink_agree bound pe1 pe2 h none
    { w with
      log := w.log ++ [restartBegin]
      lateRestarts :=
        if w.phase = Phase.alive then w.lateRestarts else w.lateRestarts ++ [w.phase] } hw
  have hle := resetAudioSink_queue_le pe1 hs none
    { w with
      log := w.log ++ [restartBegin]
      lateRestarts :=
        if w.phase = Phase.alive then w.lateRestarts else w.lateRestarts ++ [w.phase] }
  have e2 := resetAudioSink_agree bound pe1 pe2 h
    (some (Worker.createSink (resetAudioSink pe1 none
      { w with
        log := w.log ++ [restartBegin]
        lateRestarts :=
          if w.phase = Phase.alive then w.lateRestarts else w.lateRestarts ++ [w.phase] })).1)
    (Worker.createSink (resetAudioSink pe1 none
      { w with
        log := w.log ++ [restartBegin]
        lateRestarts :=
          if w.phase = Phase.alive then w.lateRestarts else w.lateRestarts ++ [w.phase] })).2
    (Nat.lt_of_le_of_lt hle hw)
  simp only [Worker.restartAudio]
  rw [← e1, e2]

theorem Worker.delete_agree (bound : Nat) (pe1 pe2 : WorkerThread → WorkerThread)
    (h : agreeBelow bound pe1 pe2) (w : WorkerThread) (hw : w.queue.length < bound) :
    Worker.delete pe1 w = Worker.delete pe2 w := by
  obtain ⟨log, slot, live, next, phase, timer, ls, lr, queue, arrivals, df⟩ := w
  cases slot with
  | none => rfl
  | some s =>
    cases df with
    | true =>
      simp only [Worker.delete, AudioSink.delete, if_true]
      rw [h]
      exact hw
    | false =>
      simp only [Worker.delete, AudioSink.delete, Bool.false_eq_true, if_false]
      rw [h]
      exact hw

theorem dispatch_agree (bound : Nat) (pe1 pe2 : WorkerThread → WorkerThread)
    (h : agreeBelow bound pe1 pe2) (hs : shrinks pe1) (t : PendingTask) (w : WorkerThread)
    (hw : w.queue.length < bound) :
    dispatch pe1 t w = dispatch pe2 t w := by
  cases t with
  | tick =>
    simp only [dispatch]
    rw [Worker.restartAudio_agree bound pe1 pe2 h hs w hw]
  | destroyWorker =>
    simp only [dispatch]
    rw [Worker.delete_agree bound pe1 pe2 h w hw]

theorem dispatchPending_agree (bound : Nat) (pe1 pe2 : WorkerThread → WorkerThread)
    (h : agreeBelow bound pe1 pe2) (hs : shrinks pe1) (k : Nat) :
    ∀ w, w.queue.length ≤ bound → dispatchPending pe1 k w = dispatchPending pe2 k w := by
  induction k with
  | zero => intro w _; rfl
  | succ k ih =>
    intro w hw
    obtain ⟨log, slot, live, next, phase, timer, ls, lr, queue, arrivals, df⟩ := w
    cases queue with
    | nil => rfl
    | cons t rest =>
      have hr : rest.length < bound := by
        simp only [List.length_cons] at hw
        omega
      simp only [dispatchPending]
      rw [← dispatch_agree bound pe1 pe2 h hs t _ hr]
      apply ih
      exact Nat.le_trans (dispatch_queue_le pe1 hs t _) (Nat.le_of_lt hr)

/-- Any two nesting budgets above the number of queued tasks give the same
`processEvents`. -/
theorem processEvents_depth (d1 : Nat) :
    ∀ (d2 : Nat) (w : WorkerThread), w.queue.length < d1 → w.queue.length < d2 →
      processEvents d1 w = processEvents d2 w := by
  induction d1 with
  | zero => intro d2 w h1 _; exact absurd h1 (Nat.not_lt_zero _)
  | succ e1 ih =>
    intro d2 w h1 h2
    cases d2 with
    | zero => exact absurd h2 (Nat.not_lt_zero _)
    | succ e2 =>
      obtain ⟨log, slot, live, next, phase, timer, ls, lr, queue, arrivals, df⟩ := w
      cases arrivals with
      | nil => rfl
      | cons k ks =>
        simp only [processEvents]
        have hag : agreeBelow queue.length (processEvents e1) (processEvents e2) := by
          intro w1 hw1
          have h1' : queue.length < e1 + 1 := h1
          have h2' : queue.length < e2 + 1 := h2
          exact ih e2 w1 (by omega) (by omega)
        exact dispatchPending_agree queue.length _ _ hag (processEvents_shrinks e1) k _
          (Nat.le_refl _)

/-- A task budget beyond the number of queued tasks changes nothing. -/
theorem dispatchPending_budget (pe : WorkerThread → WorkerThread) (hpe : shrinks pe)
    (n : Nat) : ∀ (w : WorkerThread) (j : Nat), w.queue.length ≤ n →
      dispatchPending pe (n + j) w = dispatchPending pe n w := by
  induction n with
  | zero =>
    intro w j h0
    have hq : w.queue = [] := List.length_eq_zero.mp (Nat.le_zero.mp h0)
    cases j with
    | zero => rfl
    | succ j => simp [dispatchPending, hq]
  | succ n ih =>
    intro w j hn
    obtain ⟨log, slot, live, next, phase, timer, ls, lr, queue, arrivals, df⟩ := w
    cases queue with
    | nil => simp [dispatchPending, Nat.succ_add]
    | cons t rest =>
      rw [Nat.succ_add]
      simp only [dispatchPending]
      apply ih
      have hr : rest.length ≤ n := by
        simp only [List.length_cons] at hn
        omega
      exact Nat.le_trans (dispatch_queue_le pe hpe t _) hr

/-- Enough budget gives the result: the event loop run with any nesting budget
`depth` and any task budget `k` of at least the number of queued tasks is `exec`. -/
theorem exec_budget (w : WorkerThread) (depth k : Nat) (hd : w.queue.length ≤ depth)
    (hk : w.queue.length ≤ k) :
    dispatchPending (processEvents depth) k w = exec w := by
  have hag : agreeBelow w.queue.length (processEvents depth) (processEvents w.queue.length) := by
    intro w1 hw1
    exact processEvents_depth depth _ w1 (by omega) hw1
  rw [exec, ← dispatchPending_agree w.queue.length _ _ hag (processEvents_shrinks depth)
    w.queue.length w (Nat.le_refl _)]
  obtain ⟨j, rfl⟩ := Nat.exists_eq_add_of_le hk
  exact dispatchPending_budget _ (processEvents_shrinks depth) _ w j (Nat.le_refl _)

/-! ## Lifecycle invariant -/

theorem lifecycleInv_congr {n : Nat} {posted : Bool} {w w1 : WorkerThread}
    (h : lifecycleInv n posted w) (hp : w1.phase = w.phase)
    (ht : w1.timerActive = w.timerActive) (hl : w1.lateRestarts = w.lateRestarts)
    (hq : w1.queue = w.queue) (hc : destroyedCount w1.log = destroyedCount w.log) :
    lifecycleInv n posted w1 := by
  unfold lifecycleInv at *
  rw [hp, ht, hl, hq, hc]
  exact h

theorem destroyedCount_append_other (log : List Msg) (m : Msg) (hm : m ≠ workerDestroyed) :
    destroyedCount (log ++ [m]) = destroyedCount log := by
  simp [destroyedCount, List.count_append, List.count_cons, hm]

theorem lifecycleInv_delete (pe : WorkerThread → WorkerThread)
    (hpe : ∀ n posted w, lifecycleInv n posted w → lifecycleInv n posted (pe w))
    {n : Nat} {posted : Bool} (s : Nat) (w : WorkerThread) (h : lifecycleInv n posted w) :
    lifecycleInv n posted (AudioSink.delete pe s w) :=
  lifecycleInv_congr (hpe n posted w h) rfl rfl rfl rfl
    (destroyedCount_append_other _ _ (by simp))

theorem lifecycleInv_reset (pe : WorkerThread → WorkerThread)
    (hpe : ∀ n posted w, lifecycleInv n posted w → lifecycleInv n posted (pe w))
    {n : Nat} {posted : Bool} (p : Option Nat) (w : WorkerThread)
    (h : lifecycleInv n posted w) :
    lifecycleInv n posted (resetAudioSink pe p w) := by
  obtain ⟨log, slot, live, next, phase, timer, ls, lr, queue, arrivals, df⟩ := w
  cases slot with
  | none => exact lifecycleInv_congr h rfl rfl rfl rfl rfl
  | some s =>
    exact lifecycleInv_delete pe hpe s _ (lifecycleInv_congr h rfl rfl rfl rfl rfl)

theorem lifecycleInv_restartAudio (pe : WorkerThread → WorkerThread)
    (hpe : ∀ n posted w, lifecycleInv n posted w → lifecycleInv n posted (pe w))
    {n : Nat} {posted : Bool} (w : WorkerThread) (h : lifecycleInv n posted w)
    (ht : w.timerActive = true) :
    lifecycleInv n posted (Worker.restartAudio pe w) := by
  have h1 : lifecycleInv n posted
      { w with
        log := w.log ++ [restartBegin]
        lateRestarts :=
          if w.phase = Phase.alive then w.lateRestarts else w.lateRestarts ++ [w.phase] } := by
    obtain ⟨hr, hc, hg, hl, hk⟩ := h
    refine ⟨hr, ?_, hg, ?_, hk⟩
    · exact (destroyedCount_append_other _ _ (by simp)).trans hc
    · show Phase.gone ∉
        (if w.phase = Phase.alive then w.lateRestarts else w.lateRestarts ++ [w.phase])
      split
      · exact hl
      · intro hin
        rcases List.mem_append.mp hin with hin | hin
        · exact hl hin
        · have hgone : w.phase = Phase.gone := (List.mem_singleton.mp hin).symm
          rw [hg hgone] at ht
          exact Bool.false_ne_true ht
  have h2 := lifecycleInv_reset pe hpe none _ h1
  have h3 : lifecycleInv n posted (Worker.createSink (resetAudioSink pe none
      { w with
        log := w.log ++ [restartBegin]
        lateRestarts :=
          if w.phase = Phase.alive then w.lateRestarts else w.lateRestarts ++ [w.phase] })).2 :=
    lifecycleInv_congr h2 rfl rfl rfl rfl (destroyedCount_append_other _ _ (by simp))
  have h4 := lifecycleInv_reset pe hpe
    (some (Worker.createSink (resetAudioSink pe none
      { w with
        log := w.log ++ [restartBegin]
        lateRestarts :=
          if w.phase = Phase.alive then w.lateRestarts else w.lateRestarts ++ [w.phase] })).1)
    _ h3
  exact lifecycleInv_congr h4 rfl rfl rfl rfl (destroyedCount_append_other _ _ (by simp))

theorem lifecycleInv_workerDelete (pe : WorkerThread → WorkerThread)
    (hpe : ∀ n posted w, lifecycleInv n posted w → lifecycleInv n posted (pe w))
    {n : Nat} (posted : Bool) (w : WorkerThread) (h : lifecycleInv n false w)
    (ha : w.phase = Phase.alive) :
    lifecycleInv n posted (Worker.delete pe w) := by
  obtain ⟨log, slot, live, next, phase, timer, ls, lr, queue, arrivals, df⟩ := w
  have ha0 : phase = Phase.alive := ha
  subst ha0
  obtain ⟨hr, hc, -, hl, -⟩ := h
  have hn : n = 0 := Nat.le_zero.mp hr
  subst hn
  have h1 : ∀ slot1, lifecycleInv 1 false
      { log := log ++ [workerDestroyed], m_audioSink := slot1, liveSinks := live,
        nextSink := next, phase := Phase.destroying, timerActive := timer, lateStores := ls,
        lateRestarts := lr, queue := queue, arrivals := arrivals, deleterFirst := df } := by
    intro slot1
    refine ⟨Nat.le_refl _, ?_, by simp, hl, by simp⟩
    have hc0 : destroyedCount log = 0 := by simpa using hc
    simp [destroyedCount, List.count_append] at hc0 ⊢
    exact hc0
  have hfin : ∀ w2 : WorkerThread, lifecycleInv 1 false w2 →
      lifecycleInv 0 posted { w2 with timerActive := false, phase := Phase.gone } := by
    intro w2 h2
    obtain ⟨hr2, hc2, -, hl2, -⟩ := h2
    have hne : w2.phase ≠ Phase.alive := by
      intro he
      rw [he] at hr2
      exact absurd hr2 (by decide)
    refine ⟨Nat.zero_le _, ?_, fun _ => rfl, hl2, by simp⟩
    simpa [hne] using hc2
  cases slot with
  | none => exact hfin _ (h1 none)
  | some s =>
    cases df with
    | true =>
      exact hfin _ (lifecycleInv_congr (lifecycleInv_delete pe hpe s _ (h1 (some s)))
        rfl rfl rfl rfl rfl)
    | false => exact hfin _ (lifecycleInv_delete pe hpe s _ (h1 none))

/-- Taking a task from the queue and delivering it keeps the invariant. -/
theorem lifecycleInv_step (pe : WorkerThread → WorkerThread)
    (hpe : ∀ n posted w, lifecycleInv n posted w → lifecycleInv n posted (pe w))
    {n : Nat} {posted : Bool} (t : PendingTask) (rest : List PendingTask) (w : WorkerThread)
    (hq : w.queue = t :: rest) (h : lifecycleInv n posted w) :
    lifecycleInv n posted (dispatch pe t { w with queue := rest }) := by
  obtain ⟨hr, hc, hg, hl, hk⟩ := h
  cases t with
  | tick =>
    have h1 : lifecycleInv n posted { w with queue := rest } := by
      refine ⟨hr, hc, hg, hl, ?_⟩
      intro hp ha
      have := hk hp ha
      rw [hq] at this
      simpa using this
    simp only [dispatch]
    split
    · next ht => exact lifecycleInv_restartAudio pe hpe _ h1 ht
    · exact h1
  | destroyWorker =>
    simp only [dispatch]
    split
    · next ha =>
      exact lifecycleInv_workerDelete pe hpe posted _ ⟨hr, hc, hg, hl, by simp⟩ ha
    · next ha =>
      exact ⟨hr, hc, hg, hl, fun _ hal => absurd hal ha⟩

theorem lifecycleInv_dispatchPending (pe : WorkerThread → WorkerThread)
    (hpe : ∀ n posted w, lifecycleInv n posted w → lifecycleInv n posted (pe w))
    (k : Nat) : ∀ (n : Nat) (posted : Bool) (w : WorkerThread),
      lifecycleInv n posted w → lifecycleInv n posted (dispatchPending pe k w) := by
  induction k with
  | zero => intro n posted w h; exact h
  | succ k ih =>
    intro n posted w h
    cases hq : w.queue with
    | nil => simpa [dispatchPending, hq] using h
    | cons t rest =>
      have := ih n posted _ (lifecycleInv_step pe hpe t rest w hq h)
      simpa [dispatchPending, hq] using this

theorem lifecycleInv_processEvents (depth : Nat) :
    ∀ (n : Nat) (posted : Bool) (w : WorkerThread),
      lifecycleInv n posted w → lifecycleInv n posted (processEvents depth w) := by
  induction depth with
  | zero => intro n posted w h; exact h
  | succ d ih =>
    intro n posted w h
    cases ha : w.arrivals with
    | nil => simpa [processEvents, ha] using h
    | cons k ks =>
      have h1 : lifecycleInv n posted { w with arrivals := ks } :=
        lifecycleInv_congr h rfl rfl rfl rfl rfl
      have := lifecycleInv_dispatchPending (processEvents d) ih k n posted _ h1
      simpa [processEvents, ha] using this

/-- The invariant holds after the event loop has delivered every task. -/
theorem lifecycleInv_exec (posted : Bool) (w : WorkerThread) (h : lifecycleInv 0 posted w) :
    lifecycleInv 0 posted (exec w) :=
  lifecycleInv_dispatchPending _ (lifecycleInv_processEvents _) _ 0 posted w h

/-- A started worker satisfies the invariant, with `posted` set when a deferred
delete is among the queued tasks. -/
theorem lifecycleInv_started (q : List PendingTask) (a : List Nat) :
    lifecycleInv 0 (decide (destroyWorker ∈ q)) (Worker.started q a) := by
  refine ⟨Nat.zero_le _, ?_, ?_, ?_, ?_⟩
  · simp [Worker.started, Worker.initAudio, Worker.new, destroyedCount]
  · simp [Worker.started, Worker.initAudio, Worker.new]
  · simp [Worker.started, Worker.initAudio, Worker.new]
  · intro hp _
    simpa [Worker.started] using hp

/-- For every interleaving: if a deferred delete was posted, exactly one "Worker
destroyed" has been printed when the queue has been processed. -/
theorem exec_destroyedCount (q1 q2 : List PendingTask) (a : List Nat) :
    destroyedCount (exec (Worker.started (q1 ++ destroyWorker :: q2) a)).log = 1 := by
  have h0 := lifecycleInv_started (q1 ++ destroyWorker :: q2) a
  have hmem : decide (destroyWorker ∈ q1 ++ destroyWorker :: q2) = true := by simp
  rw [hmem] at h0
  obtain ⟨-, hc, -, -, hk⟩ := lifecycleInv_exec true _ h0
  have hne : (exec (Worker.started (q1 ++ destroyWorker :: q2) a)).phase ≠ Phase.alive := by
    intro ha
    have := hk rfl ha
    rw [exec_queue] at this
    exact absurd this (List.not_mem_nil _)
  simpa [hne] using hc

/-! ## The documented race: `processEvents` inside `~AudioSink` -/

/-- C1, refuted on the code: two ticks, with the deferred delete of the Worker
already pending when the second tick's `m_audioSink.reset()` runs `~AudioSink`.
The `processEvents` call in `~AudioSink` destroys the Worker, and `restartAudio`
then assigns the newly created sink 1 to `m_audioSink` of the destroyed Worker. -/
theorem restartAudio_assigns_after_worker_destroyed :
    (exec (Worker.started [tick, tick, destroyWorker] [1])).lateStores = [1] ∧
    (exec (Worker.started [tick, tick, destroyWorker] [1])).phase = Phase.gone ∧
    (exec (Worker.started [tick, tick, destroyWorker] [1])).m_audioSink = some 1 ∧
    (exec (Worker.started [tick, tick, destroyWorker] [1])).log =
      [workerCreated, initAudio,
       restartBegin, sinkCreated 0, restartEnd,
       restartBegin, workerDestroyed, sinkDeleted 0, sinkCreated 1, restartEnd] := by
  decide

/-- C2, refuted on the code: three ticks and a deferred delete that is pending
when the third tick deletes its sink. After the first tick the log is, line for
line, the "bad log" of the comment in widget.cpp: "Worker destroyed" is printed
between the third "Restart audio begin" and its "Restart audio end", so the
deferred delete ran nested inside `restartAudio`, before that call returned. -/
theorem destroyWorker_runs_nested_in_restartAudio :
    (exec (Worker.started [tick, tick, tick, destroyWorker] [0, 1])).log.drop 5 =
      [restartBegin, sinkDeleted 0, sinkCreated 1, restartEnd,
       restartBegin, workerDestroyed, sinkDeleted 1, sinkCreated 2, restartEnd] ∧
    (exec (Worker.started [tick, tick, tick, destroyWorker] [0, 1])).queue = [] := by
  decide

/-- C3, refuted on the code: ticks with the deferred delete posted in the middle
and pending while the second tick deletes its sink. When the queue has been fully
processed two sinks were created and one destroyed: sink 1 is left alive, although
the Worker was destroyed exactly once. -/
theorem sink_leaked_after_queue_processed :
    createdCount (exec (Worker.started [tick, tick, destroyWorker, tick, tick] [1])).log = 2 ∧
    deletedCount (exec (Worker.started [tick, tick, destroyWorker, tick, tick] [1])).log = 1 ∧
    (exec (Worker.started [tick, tick, destroyWorker, tick, tick] [1])).liveSinks = [1] ∧
    destroyedCount (exec (Worker.started [tick, tick, destroyWorker, tick, tick] [1])).log = 1 ∧
    (exec (Worker.started [tick, tick, destroyWorker, tick, tick] [1])).queue = [] := by
  decide

/-- C8: on a Worker whose `m_audioSink` is empty, `m_audioSink.reset()` changes
nothing, whatever `processEvents` would do (so `~AudioSink` is not run), and
clearing twice is clearing once; the first tick prints no "Sink deleted"; and
destroying such a Worker prints "Worker destroyed" only, leaves the slot empty and
neither destroys a sink nor touches the event queue. -/
theorem reset_empty_slot_is_noop (pe : WorkerThread → WorkerThread) (w : WorkerThread)
    (h : w.m_audioSink = none) :
    resetAudioSink pe none w = w ∧
    resetAudioSink pe none (resetAudioSink pe none w) = resetAudioSink pe none w ∧
    (Worker.restartAudio pe w).log =
      w.log ++ [restartBegin, sinkCreated w.nextSink, restartEnd] ∧
    (Worker.delete pe w).log = w.log ++ [workerDestroyed] ∧
    (Worker.delete pe w).m_audioSink = none ∧
    (Worker.delete pe w).liveSinks = w.liveSinks ∧
    (Worker.delete pe w).queue = w.queue ∧
    (Worker.delete pe w).arrivals = w.arrivals := by
  have h1 : resetAudioSink pe none w = w := by
    cases w
    simp only [resetAudioSink] at h ⊢
    subst h
    simp
  refine ⟨h1, by rw [h1, h1], ?_, ?_, ?_, ?_, ?_, ?_⟩
  · simp [Worker.restartAudio, resetAudioSink, Worker.createSink, h]
  all_goals simp [Worker.delete, h]

/-- Witness for C8: a freshly started Worker has an empty slot; the function
given for `processEvents` would wipe the log if it were called. -/
theorem reset_empty_slot_is_noop_witness :
    resetAudioSink (fun w => { w with log := [] }) none (Worker.started [tick] [1]) =
      Worker.started [tick] [1] ∧
    (Worker.delete (fun w => { w with log := [] }) (Worker.started [tick] [1])).log =
      [workerCreated, initAudio, workerDestroyed] :=
  have h := reset_empty_slot_is_noop (fun w => { w with log := [] })
    (Worker.started [tick] [1]) rfl
  ⟨h.1, h.2.2.2.1⟩

/-! ## The controller side -/

/-- C7: for every Widget state, `stop` releases the held Worker and posts
`deleteLater` for it once (for nothing if no Worker is held); a second `stop`,
or `~Widget` after a `stop`, finds `m_worker` empty and posts nothing. On the worker
thread, the one deferred delete posted among any ticks, whatever is pending when
`processEvents` is called, prints "Worker destroyed" exactly once. -/
theorem stop_twice_posts_deleteLater_once (g : Widget) (i j : Nat) (a : List Nat) :
    (Widget.stop g).m_worker = none ∧
    (Widget.stop g).deleteLaterPosted = g.deleteLaterPosted ++ g.m_worker.toList ∧
    (Widget.stop (Widget.stop g)).m_worker = none ∧
    (Widget.stop (Widget.stop g)).deleteLaterPosted = (Widget.stop g).deleteLaterPosted ∧
    (Widget.destroy (Widget.stop g)).m_worker = none ∧
    (Widget.destroy (Widget.stop g)).deleteLaterPosted = (Widget.stop g).deleteLaterPosted ∧
    destroyedCount (exec (Worker.started
      (List.replicate i tick ++ destroyWorker :: List.replicate j tick) a)).log = 1 := by
  have hw := exec_destroyedCount (List.replicate i tick) (List.replicate j tick) a
  cases g with
  | mk m_worker text clicked deleteLaterPosted initAudioPosted nextWorker threadRunning =>
    cases m_worker <;> simp [Widget.stop, Widget.destroy, Widget.resetWorker, hw]

/-- A click on a widget armed for `start` starts a Worker (the assertion holds)
and arms `stop`; a click on a widget armed for `stop` arms `start`. -/
theorem Widget.click_armed (running : Bool) (g : Widget) (h : Widget.armed running g) :
    ∃ g1, Widget.click g = some g1 ∧ Widget.armed (!running) g1 := by
  cases g with
  | mk m_worker text clicked deleteLaterPosted initAudioPosted nextWorker threadRunning =>
    cases running
    · obtain ⟨h1, h2, h3⟩ : clicked = [ClickSlot.start] ∧ m_worker = none ∧ text = "START" := by
        simpa [Widget.armed] using h
      subst h1 h2 h3
      simp [Widget.click, Widget.invoke, Widget.start, Widget.resetWorker, Widget.armed]
    · obtain ⟨h1, h2, h3⟩ :
          clicked = [ClickSlot.stop] ∧ m_worker.isSome = true ∧ text = "STOP" := by
        simpa [Widget.armed] using h
      subst h1 h3
      cases m_worker with
      | none => simp at h2
      | some worker =>
        simp [Widget.click, Widget.invoke, Widget.stop, Widget.resetWorker, Widget.armed]

/-- Clicks keep the widget in one of the two armed states, which alternate. -/
theorem Widget.clicks_armed (n : Nat) :
    ∀ (running : Bool) (g : Widget), Widget.armed running g →
      ∃ g1, Widget.clicks n g = some g1 ∧ Widget.armed (xor running (decide (n % 2 = 1))) g1 := by
  induction n with
  | zero => intro running g h; exact ⟨g, rfl, by simpa using h⟩
  | succ n ih =>
    intro running g h
    obtain ⟨g1, hc, h1⟩ := Widget.click_armed running g h
    obtain ⟨g2, hc2, h2⟩ := ih (!running) g1 h1
    refine ⟨g2, by simp [Widget.clicks, hc, hc2], ?_⟩
    have hx : xor running (decide ((n + 1) % 2 = 1)) = xor (!running) (decide (n % 2 = 1)) := by
      rcases Nat.mod_two_eq_zero_or_one n with hn | hn <;>
        cases running <;> simp [Nat.succ_mod_two_eq_one_iff, Nat.add_mod, hn]
    rw [hx]; exact h2

/-- C10: after the constructor and any number `n` of clicks no assertion has
failed; exactly one click handler is armed, `start` after an even number of clicks
and `stop` after an odd number, and `m_worker` is non-empty exactly when the
button shows "STOP". -/
theorem start_assertion_never_fails (n : Nat) :
    ∃ g, Widget.clicks n Widget.new = some g ∧
      g.clicked = [if n % 2 = 0 then ClickSlot.start else ClickSlot.stop] ∧
      (g.m_worker.isSome = true ↔ g.text = "STOP") ∧
      (g.text = "STOP" ↔ n % 2 = 1) ∧
      (g.text = "START" ↔ n % 2 = 0) := by
  have h0 : Widget.armed false Widget.new := by
    simp [Widget.armed, Widget.new, Widget.stop, Widget.resetWorker]
  obtain ⟨g, hg, ha⟩ := Widget.clicks_armed n false Widget.new h0
  refine ⟨g, hg, ?_⟩
  rcases Nat.mod_two_eq_zero_or_one n with hn | hn
  · have : g.clicked = [ClickSlot.start] ∧ g.m_worker = none ∧ g.text = "START" := by
      simpa [Widget.armed, hn] using ha
    obtain ⟨h1, h2, h3⟩ := this
    simp [h1, h2, h3, hn]
  · have : g.clicked = [ClickSlot.stop] ∧ g.m_worker.isSome = true ∧ g.text = "STOP" := by
      simpa [Widget.armed, hn] using ha
    obtain ⟨h1, h2, h3⟩ := this
    simp [h1, h2, h3, hn]

/-! ## One replacement with nothing pending -/

/-- A `processEvents` call that finds nothing pending dispatches nothing: at most
the arrival pattern advances. -/
theorem processEvents_nothingPending (depth : Nat) (w : WorkerThread)
    (h : nothingPending w) :
    ∃ a, processEvents depth w = { w with arrivals := a } ∧
      (a = w.arrivals ∨ a = w.arrivals.tail) := by
  obtain ⟨log, slot, live, next, phase, timer, ls, lr, queue, arrivals, df⟩ := w
  cases depth with
  | zero => exact ⟨arrivals, rfl, Or.inl rfl⟩
  | succ d =>
    cases arrivals with
    | nil => exact ⟨[], by simp [processEvents], Or.inl rfl⟩
    | cons k ks =>
      refine ⟨ks, ?_, Or.inr rfl⟩
      rcases h with hq | hk
      · have hq0 : queue = [] := hq
        subst hq0
        cases k <;> simp [processEvents, dispatchPending]
      · have hk0 : k = 0 := by simpa using hk
        subst hk0
        simp [processEvents, dispatchPending]

/-- C9: on a live Worker, with nothing pending during the call, `restartAudio`
first deletes the held sink `s`, if any (one "Sink deleted" for `s`), then creates
the fresh sink `s' = nextSink` and stores it: afterwards the slot holds `s'`, `s'` is
live and `s` is not, every other live sink is untouched, and the lines printed are
"Restart audio begin", the deletion of `s` (if any), the creation of `s'`,
"Restart audio end". -/
theorem restartAudio_replaces_sink (depth : Nat) (w : WorkerThread)
    (hp : nothingPending w) (ha : w.phase = Phase.alive) (hn : sinksNumbered w) :
    (Worker.restartAudio (processEvents depth) w).m_audioSink = some w.nextSink ∧
    w.nextSink ∉ w.liveSinks ∧
    w.nextSink ∈ (Worker.restartAudio (processEvents depth) w).liveSinks ∧
    (∀ s, w.m_audioSink = some s →
      s ≠ w.nextSink ∧ s ∉ (Worker.restartAudio (processEvents depth) w).liveSinks) ∧
    (Worker.restartAudio (processEvents depth) w).liveSinks =
      (match w.m_audioSink with
        | none => w.liveSinks
        | some s => w.liveSinks.filter (fun x => x != s)) ++ [w.nextSink] ∧
    (Worker.restartAudio (processEvents depth) w).log =
      w.log ++ [restartBegin] ++ w.m_audioSink.toList.map sinkDeleted ++
        [sinkCreated w.nextSink, restartEnd] ∧
    (Worker.restartAudio (processEvents depth) w).phase = Phase.alive ∧
    (Worker.restartAudio (processEvents depth) w).lateStores = w.lateStores ∧
    (Worker.restartAudio (processEvents depth) w).queue = w.queue := by
  obtain ⟨log, slot, live, next, phase, timer, ls, lr, queue, arrivals, df⟩ := w
  obtain ⟨hlt, hmem⟩ := hn
  have ha0 : phase = Phase.alive := ha
  subst ha0
  have hfresh : next ∉ live := fun hin => Nat.lt_irrefl _ (hlt _ hin)
  cases slot with
  | none =>
    simp [Worker.restartAudio, resetAudioSink, Worker.createSink, hfresh]
  | some s =>
    have hsl : s < next := hlt s (hmem s rfl)
    have hne : s ≠ next := Nat.ne_of_lt hsl
    obtain ⟨a, hpe, -⟩ := processEvents_nothingPending depth
      { log := log ++ [restartBegin], m_audioSink := none, liveSinks := live, nextSink := next,
        phase := Phase.alive, timerActive := timer, lateStores := ls, lateRestarts := lr,
        queue := queue, arrivals := arrivals, deleterFirst := df } hp
    simp [Worker.restartAudio, resetAudioSink, Worker.createSink, AudioSink.delete,
      hpe, hfresh, hne, Ne.symm hne]

/-- Witness for C9: the worker after one tick, with the deferred delete queued but
not yet pending; the call replaces sink 0 by sink 1. -/
theorem restartAudio_replaces_sink_witness :
    (Worker.restartAudio (processEvents 2) (afterTicks 1 [destroyWorker] [0])).m_audioSink
      = some 1 ∧
    (Worker.restartAudio (processEvents 2) (afterTicks 1 [destroyWorker] [0])).liveSinks
      = [1] ∧
    (Worker.restartAudio (processEvents 2) (afterTicks 1 [destroyWorker] [0])).log =
      [workerCreated, initAudio, restartBegin, sinkCreated 0, restartEnd,
       restartBegin, sinkDeleted 0, sinkCreated 1, restartEnd] :=
  have h := restartAudio_replaces_sink 2 (afterTicks 1 [destroyWorker] [0]) (Or.inr rfl) rfl
    ⟨by decide, by intro s hs; cases hs; decide⟩
  ⟨h.1, h.2.2.2.2.1, h.2.2.2.2.2.1⟩

/-! ## Ticks followed by the deferred delete, nothing pending in between -/

theorem createdCount_ticksLog (n : Nat) : createdCount (ticksLog n) = n := by
  induction n with
  | zero => rfl
  | succ n ih =>
    have : createdCount (tickLog n) = 1 := by cases n <;> rfl
    simp only [createdCount] at ih this ⊢
    simp [ticksLog, List.countP_append, ih, this]

theorem deletedCount_ticksLog (n : Nat) : deletedCount (ticksLog n) = n - 1 := by
  induction n with
  | zero => rfl
  | succ n ih =>
    cases n with
    | zero => rfl
    | succ m =>
      have : deletedCount (tickLog (m + 1)) = 1 := rfl
      simp only [deletedCount] at ih this ⊢
      rw [ticksLog, List.countP_append, ih, this]
      omega

theorem destroyedCount_ticksLog (n : Nat) : destroyedCount (ticksLog n) = 0 := by
  induction n with
  | zero => rfl
  | succ n ih =>
    have : destroyedCount (tickLog n) = 0 := by
      cases n <;> simp [destroyedCount, tickLog]
    simp only [destroyedCount] at ih this ⊢
    simp [ticksLog, List.count_append, ih, this]

/-- The state left by `restartAudio` when the slot holds `s` and nothing is
pending while `s` is deleted. -/
theorem restartAudio_nothingPending (depth : Nat) (w : WorkerThread) (s : Nat)
    (hs : w.m_audioSink = some s) (hp : nothingPending w) (ha : w.phase = Phase.alive) :
    ∃ a1, (a1 = w.arrivals ∨ a1 = w.arrivals.tail) ∧
      Worker.restartAudio (processEvents depth) w =
        { w with
          log := w.log ++ [restartBegin, sinkDeleted s, sinkCreated w.nextSink, restartEnd]
          m_audioSink := some w.nextSink
          liveSinks := w.liveSinks.filter (fun x => x != s) ++ [w.nextSink]
          nextSink := w.nextSink + 1
          arrivals := a1 } := by
  obtain ⟨log, slot, live, next, phase, timer, ls, lr, queue, arrivals, df⟩ := w
  have ha0 : phase = Phase.alive := ha
  have hs0 : slot = some s := hs
  subst ha0 hs0
  obtain ⟨a1, hpe, hsub⟩ := processEvents_nothingPending depth
    { log := log ++ [restartBegin], m_audioSink := none, liveSinks := live, nextSink := next,
      phase := Phase.alive, timerActive := timer, lateStores := ls, lateRestarts := lr,
      queue := queue, arrivals := arrivals, deleterFirst := df } hp
  refine ⟨a1, hsub, ?_⟩
  simp [Worker.restartAudio, resetAudioSink, Worker.createSink, AudioSink.delete, hpe]

/-- One tick with nothing pending takes `afterTicks n` to `afterTicks (n + 1)`. -/
theorem dispatch_tick_afterTicks (depth n : Nat) (q : List PendingTask) (a : List Nat)
    (ha : ∀ k ∈ a, k = 0) :
    ∃ a1, (∀ k ∈ a1, k = 0) ∧
      dispatch (processEvents depth) tick (afterTicks n q a) = afterTicks (n + 1) q a1 := by
  cases n with
  | zero =>
    exact ⟨a, ha, by
      simp [dispatch, afterTicks, Worker.restartAudio, resetAudioSink, Worker.createSink,
        ticksLog, tickLog]⟩
  | succ m =>
    have hp : nothingPending (afterTicks (m + 1) q a) := by
      right
      cases a with
      | nil => rfl
      | cons k ks => exact ha k (List.mem_cons_self k ks)
    obtain ⟨a1, hsub, hr⟩ :=
      restartAudio_nothingPending depth (afterTicks (m + 1) q a) m (by simp [afterTicks]) hp rfl
    refine ⟨a1, ?_, ?_⟩
    · rcases hsub with h | h
      · subst h; exact ha
      · subst h
        intro k hk
        exact ha k (List.mem_of_mem_tail hk)
    · have ht : (afterTicks (m + 1) q a).timerActive = true := rfl
      rw [dispatch, if_pos ht, hr]
      simp [afterTicks, ticksLog, tickLog]

/-- A run of `n` ticks with nothing pending. -/
theorem dispatchPending_ticks (depth : Nat) (q : List PendingTask) (m n : Nat) :
    ∀ (i : Nat) (a : List Nat), (∀ k ∈ a, k = 0) →
      ∃ a1, (∀ k ∈ a1, k = 0) ∧
        dispatchPending (processEvents depth) (n + m)
            (afterTicks i (List.replicate n tick ++ q) a) =
          dispatchPending (processEvents depth) m (afterTicks (i + n) q a1) := by
  induction n with
  | zero => intro i a ha; exact ⟨a, ha, by simp⟩
  | succ n ih =>
    intro i a ha
    obtain ⟨a1, ha1, h1⟩ := dispatch_tick_afterTicks depth i (List.replicate n tick ++ q) a ha
    obtain ⟨a2, ha2, h2⟩ := ih (i + 1) a1 ha1
    refine ⟨a2, ha2, ?_⟩
    have hq : (afterTicks i (List.replicate (n + 1) tick ++ q) a).queue =
        tick :: (List.replicate n tick ++ q) := by
      simp [afterTicks, List.replicate_succ]
    have hw : { afterTicks i (List.replicate (n + 1) tick ++ q) a with
          queue := List.replicate n tick ++ q } =
        afterTicks i (List.replicate n tick ++ q) a := by
      simp [afterTicks]
    rw [show n + 1 + m = (n + m) + 1 by omega, dispatchPending, hq]
    simp only [hw, h1, h2]
    congr 2
    omega

/-- The state left by `delete worker` when the slot holds `s` and nothing is
pending while `s` is deleted; it is the same for both orders of `~unique_ptr`. -/
theorem Worker.delete_nothingPending (depth : Nat) (w : WorkerThread) (s : Nat)
    (hs : w.m_audioSink = some s) (hp : nothingPending w) :
    ∃ a1, (a1 = w.arrivals ∨ a1 = w.arrivals.tail) ∧
      Worker.delete (processEvents depth) w =
        { w with
          log := w.log ++ [workerDestroyed, sinkDeleted s]
          m_audioSink := none
          liveSinks := w.liveSinks.filter (fun x => x != s)
          phase := Phase.gone
          timerActive := false
          arrivals := a1 } := by
  obtain ⟨log, slot, live, next, phase, timer, ls, lr, queue, arrivals, df⟩ := w
  have hs0 : slot = some s := hs
  subst hs0
  cases df with
  | true =>
    obtain ⟨a1, hpe, hsub⟩ := processEvents_nothingPending depth
      { log := log ++ [workerDestroyed], m_audioSink := some s, liveSinks := live,
        nextSink := next, phase := Phase.destroying, timerActive := timer, lateStores := ls,
        lateRestarts := lr, queue := queue, arrivals := arrivals, deleterFirst := true } hp
    refine ⟨a1, hsub, ?_⟩
    simp [Worker.delete, AudioSink.delete, hpe]
  | false =>
    obtain ⟨a1, hpe, hsub⟩ := processEvents_nothingPending depth
      { log := log ++ [workerDestroyed], m_audioSink := none, liveSinks := live,
        nextSink := next, phase := Phase.destroying, timerActive := timer, lateStores := ls,
        lateRestarts := lr, queue := queue, arrivals := arrivals, deleterFirst := false } hp
    refine ⟨a1, hsub, ?_⟩
    simp [Worker.delete, AudioSink.delete, hpe]

/-- The whole run: `n ≥ 1` ticks, then the deferred delete, nothing pending during
any handler. -/
theorem exec_ticks_then_destroy (n : Nat) (a : List Nat) (hn : 1 ≤ n)
    (ha : ∀ k ∈ a, k = 0) :
    ∃ a1, exec (Worker.started (List.replicate n tick ++ [destroyWorker]) a) =
      { log := [workerCreated, initAudio] ++ ticksLog n ++ [workerDestroyed, sinkDeleted (n - 1)]
        m_audioSink := none
        liveSinks := []
        nextSink := n
        phase := Phase.gone
        timerActive := false
        lateStores := []
        lateRestarts := []
        queue := []
        arrivals := a1
        deleterFirst := true } := by
  have h0 : Worker.started (List.replicate n tick ++ [destroyWorker]) a =
      afterTicks 0 (List.replicate n tick ++ [destroyWorker]) a := by
    simp [Worker.started, Worker.initAudio, Worker.new, afterTicks, ticksLog]
  have hlen : (Worker.started (List.replicate n tick ++ [destroyWorker]) a).queue.length
      = n + 1 := by
    simp [Worker.started]
  obtain ⟨a1, ha1, h1⟩ := dispatchPending_ticks (n + 1) [destroyWorker] 1 n 0 a ha
  have hp : nothingPending (afterTicks n [] a1) := by
    left; rfl
  obtain ⟨a2, -, h2⟩ := Worker.delete_nothingPending (n + 1) (afterTicks n [] a1) (n - 1)
    (by simp [afterTicks]; omega) hp
  refine ⟨a2, ?_⟩
  rw [exec, hlen, h0, h1, Nat.zero_add]
  have hq : (afterTicks n [destroyWorker] a1).queue = [destroyWorker] := rfl
  have hw : { afterTicks n [destroyWorker] a1 with queue := [] } = afterTicks n [] a1 := rfl
  have hph : (afterTicks n [] a1).phase = Phase.alive := rfl
  rw [dispatchPending, hq]
  simp only [hw, dispatch, hph, if_true, dispatchPending, h2]
  have hn0 : n ≠ 0 := by omega
  simp [afterTicks, hn0]

/-- C5 as the code has it: for every `n ≥ 1`, a Worker that handles `n` ticks and
then the deferred delete, with nothing pending during any handler, prints exactly
`n` "Sink created", `n` "Sink deleted" (`n - 1` during the ticks, the last one at
teardown) and one "Worker destroyed"; "Worker destroyed" is printed by the body of
`~Worker` first and the last "Sink deleted" follows it as the final line, when the
member slot is destroyed. No sink is left alive. -/
theorem ticks_then_destroy_counts (n : Nat) (a : List Nat) (hn : 1 ≤ n)
    (ha : ∀ k ∈ a, k = 0) :
    (exec (Worker.started (List.replicate n tick ++ [destroyWorker]) a)).log =
      [workerCreated, initAudio] ++ ticksLog n ++ [workerDestroyed, sinkDeleted (n - 1)] ∧
    createdCount (exec (Worker.started (List.replicate n tick ++ [destroyWorker]) a)).log = n ∧
    deletedCount (exec (Worker.started (List.replicate n tick ++ [destroyWorker]) a)).log = n ∧
    destroyedCount (exec (Worker.started (List.replicate n tick ++ [destroyWorker]) a)).log = 1 ∧
    deletedCount ([workerCreated, initAudio] ++ ticksLog n) = n - 1 ∧
    destroyedCount ([workerCreated, initAudio] ++ ticksLog n) = 0 ∧
    (exec (Worker.started (List.replicate n tick ++ [destroyWorker]) a)).liveSinks = [] ∧
    (exec (Worker.started (List.replicate n tick ++ [destroyWorker]) a)).m_audioSink = none ∧
    (exec (Worker.started (List.replicate n tick ++ [destroyWorker]) a)).phase = Phase.gone ∧
    (exec (Worker.started (List.replicate n tick ++ [destroyWorker]) a)).queue = [] := by
  obtain ⟨a1, h⟩ := exec_ticks_then_destroy n a hn ha
  have hc := createdCount_ticksLog n
  have hd := deletedCount_ticksLog n
  have hw := destroyedCount_ticksLog n
  simp only [createdCount, deletedCount, destroyedCount] at hc hd hw ⊢
  rw [h]
  refine ⟨rfl, ?_, ?_, ?_, ?_, ?_, rfl, rfl, rfl, rfl⟩
  · simp [List.countP_append, List.countP_cons, hc]
  · simp [List.countP_append, List.countP_cons, hd]
    omega
  · simp [List.count_append, List.count_cons, hw]
  · simp [List.countP_append, List.countP_cons, hd]
  · simp [List.count_append, List.count_cons, hw]

/-- Witness for C5 as the code has it: three ticks, then the deferred delete. -/
theorem ticks_then_destroy_counts_witness :
    (exec (Worker.started [tick, tick, tick, destroyWorker] [0, 0])).log =
      [workerCreated, initAudio,
       restartBegin, sinkCreated 0, restartEnd,
       restartBegin, sinkDeleted 0, sinkCreated 1, restartEnd,
       restartBegin, sinkDeleted 1, sinkCreated 2, restartEnd,
       workerDestroyed, sinkDeleted 2] ∧
    createdCount (exec (Worker.started [tick, tick, tick, destroyWorker] [0, 0])).log = 3 ∧
    deletedCount (exec (Worker.started [tick, tick, tick, destroyWorker] [0, 0])).log = 3 ∧
    destroyedCount (exec (Worker.started [tick, tick, tick, destroyWorker] [0, 0])).log = 1 :=
  have h := ticks_then_destroy_counts 3 [0, 0] (by decide) (by decide)
  ⟨h.1, h.2.1, h.2.2.1, h.2.2.2.1⟩

/-- C5 as stated fails at its own witness `n = 3`: the last line of the log is
"Sink deleted" for sink 2, printed after "Worker destroyed" (line 13, counted from
0), so "Worker destroyed" does not come after the last "Sink deleted". -/
theorem worker_destroyed_precedes_last_sink_deleted :
    (exec (Worker.started [tick, tick, tick, destroyWorker] [])).log.getLast? =
      some (sinkDeleted 2) ∧
    (exec (Worker.started [tick, tick, tick, destroyWorker] [])).log.indexOf workerDestroyed
      = 13 ∧
    (exec (Worker.started [tick, tick, tick, destroyWorker] [])).log.indexOf (sinkDeleted 2)
      = 14 ∧
    ¬ ((exec (Worker.started [tick, tick, tick, destroyWorker] [])).log.indexOf (sinkDeleted 2)
      < (exec (Worker.started [tick, tick, tick, destroyWorker] [])).log.indexOf
          workerDestroyed) := by
  decide

/-! ## The timer during the destruction of the Worker -/

/-- C6, refuted on the code: two ticks, then the deferred delete, with a timeout
due while `~Worker` destroys the slot's sink. `~Worker` does not cancel the timer,
so the `processEvents` call in `~AudioSink` delivers the tick, and `restartAudio` is
entered on a Worker whose destruction has begun: "Restart audio begin" is the line
after "Worker destroyed". This holds for both orders of `~unique_ptr`. -/
theorem restartAudio_entered_during_destruction :
    (exec (Worker.started [tick, tick, destroyWorker, tick] [0, 1])).lateRestarts =
      [Phase.destroying] ∧
    (exec (Worker.started [tick, tick, destroyWorker, tick] [0, 1])).log.take 11 =
      [workerCreated, initAudio,
       restartBegin, sinkCreated 0, restartEnd,
       restartBegin, sinkDeleted 0, sinkCreated 1, restartEnd,
       workerDestroyed, restartBegin] ∧
    (exec { Worker.started [tick, tick, destroyWorker, tick] [0, 1] with
        deleterFirst := false }).lateRestarts = [Phase.destroying] ∧
    (exec { Worker.started [tick, tick, destroyWorker, tick] [0, 1] with
        deleterFirst := false }).log.take 11 =
      [workerCreated, initAudio,
       restartBegin, sinkCreated 0, restartEnd,
       restartBegin, sinkDeleted 0, sinkCreated 1, restartEnd,
       workerDestroyed, restartBegin] := by
  decide

end ProcessEventsFlakiness
